import Mathlib

/-!
Verification development for the httpd facility: the route-registration and
miss-resolution engine (path normalization, static/dynamic classification,
pattern compilation, bucketed matching, lifecycle guards), embedded shallowly
from the source file src/index.js.
-/

namespace Httpd

/-- Word characters as matched by the regex class backslash-w (ASCII letters,
digits and underscore). -/
def isWordChar (c : Char) : Bool := c.isAlphanum || c == '_'

/-- `p.split(q)[0]` for the question-mark separator: everything strictly
before the first question mark. -/
def stripQuery (p : List Char) : List Char := p.takeWhile (· != '?')

/-- The JavaScript `x || S` fallback for the root slash: an empty string is
falsy and is replaced by the single slash. -/
def orRoot (p : List Char) : List Char := if p.isEmpty then ['/'] else p

/-- `x.replace(trailing-slash-run, empty)`: remove the maximal run of
slashes at the end. -/
def stripTrailing (p : List Char) : List Char :=
  (p.reverse.dropWhile (· == '/')).reverse

/-- Embedding of the source helper
`normalize(p){ return (p.split(Q)[0] || S).replace(trailing-slashes, E) || S }`
where Q is the question mark, S the single slash and E the empty string:
take everything before the first question mark, default to the root slash if
empty, strip all trailing slashes, default to the root slash if empty. -/
def normalize (p : List Char) : List Char :=
  orRoot (stripTrailing (orRoot (stripQuery p)))

/-- Embedding of the JavaScript split on the slash character: a list of
segments such that the original list is the segments interleaved with single
slashes; always returns at least one (possibly empty) segment. -/
def splitSegs : List Char → List (List Char)
  | [] => [[]]
  | c :: rest =>
    if c = '/' then [] :: splitSegs rest
    else
      match splitSegs rest with
      | [] => [[c]]
      | s :: ss => (c :: s) :: ss

/-- Embedding of the source helper `head(p)`: the first nonempty segment of the
normalized path, or the empty list when there is none. -/
def head (p : List Char) : List Char :=
  (((splitSegs (normalize p)).filter (fun s => !s.isEmpty)).head?).getD []

/-- Atoms of the compiled route pattern: after escaping every regex
metacharacter of the normalized route path and substituting each colon
followed by a word run with the class matching one or more non-slash
characters, the resulting regex denotes a sequence of literal characters and
parameter runs. -/
inductive Tok where
  | lit : Char → Tok
  | param : Tok
deriving DecidableEq, Repr

/-- Scanner producing the token list of the compiled pattern. The boolean
state records whether we are inside the word run of a parameter that has
already been emitted (those characters are consumed by the substitution and
produce no tokens). A colon followed by at least one word character starts a
parameter; any other character is a literal (escaping makes every
metacharacter, including the asterisk, match itself literally). -/
def compileAux : Bool → List Char → List Tok
  | _, [] => []
  | skipRun, c :: rest =>
    if skipRun && isWordChar c then compileAux true rest
    else if c = ':' then
      match rest with
      | [] => [Tok.lit ':']
      | d :: ds =>
        if isWordChar d then Tok.param :: compileAux true ds
        else Tok.lit ':' :: compileAux false (d :: ds)
    else Tok.lit c :: compileAux false rest

/-- The token list of the compiled pattern of a raw (already escaped) text. -/
def compileTokens (l : List Char) : List Tok := compileAux false l

/-- Embedding of the source helper `toRegex(routePath)`: normalize, escape
every metacharacter, substitute colon-word runs by the one-or-more-non-slash
class, anchor at both ends.  Escaping is semantically the identity on the
denoted literals, so the result is the token list of the normalized path. -/
def toRegex (routePath : List Char) : List Tok := compileTokens (normalize routePath)

/-- Anchored matching of a token list against a candidate character list: a
literal token consumes exactly its character, a parameter token consumes one
or more characters none of which is a slash, and the whole candidate must be
consumed. -/
def tokMatch : List Tok → List Char → Bool
  | [], [] => true
  | [], _ :: _ => false
  | Tok.lit _ :: _, [] => false
  | Tok.param :: _, [] => false
  | Tok.lit c :: ts, d :: ds => c == d && tokMatch ts ds
  | Tok.param :: ts, d :: ds =>
    (d != '/') && (tokMatch ts ds || tokMatch (Tok.param :: ts) ds)

/-- `regex.test(p)` for the compiled pattern of a template against a path. -/
def matchPath (regex : List Tok) (p : List Char) : Bool := tokMatch regex p

/-- The registration-time classification from the onRoute hook:
`!p.includes(colon) && !p.includes(asterisk)` on the normalized path. -/
def isStaticPath (p : List Char) : Bool := !(p.contains ':') && !(p.contains '*')

/-- JavaScript `String(m).toUpperCase()` on ASCII method tokens, applied
characterwise. -/
def upper (s : String) : String := ⟨s.data.map Char.toUpper⟩

/-- JavaScript `Set.add`: append the element if it is not already present,
preserving insertion order. -/
def insertNew (s : List String) (m : String) : List String :=
  if s.contains m then s else s ++ [m]

/-- Add every element of a list to a JavaScript set, in order. -/
def insertAll (s : List String) (l : List String) : List String :=
  l.foldl insertNew s

/-- One route declaration handed to the dispatcher: the method (a single
string or an array in the source, always a list here) and the path template. -/
structure RouteDecl where
  method : List String
  path : String
deriving DecidableEq, Repr

/-- One entry of a pattern bucket: the compiled regex and the method set. -/
structure CompiledPat where
  regex : List Tok
  methods : List String
deriving DecidableEq, Repr

/-- The two miss-resolution structures built by the onRoute hook:
`methodsByPath` (exact index: normalized static path to method set) and
`patternsByHead` (first-segment bucket to ordered compiled patterns).  The
JavaScript Maps are modelled as total functions defaulting to the empty
list, which is how both maps are read in the source
(`map.get(k) || empty`). -/
structure Registry where
  methodsByPath : List Char → List String
  patternsByHead : List Char → List CompiledPat

/-- The state of both maps before any route is registered. -/
def emptyRegistry : Registry := ⟨fun _ => [], fun _ => []⟩

/-- Embedding of the body of the onRoute hook for one route: uppercase and
deduplicate the methods, normalize the path; a path without colon and
asterisk goes to the exact index (methods merged into the existing entry),
any other path is compiled and appended to the bucket of its head segment. -/
def indexRoute (reg : Registry) (r : RouteDecl) : Registry :=
  let methods := insertAll [] (r.method.map upper)
  let p := normalize r.path.data
  if isStaticPath p then
    { reg with
      methodsByPath := fun q =>
        if q = p then insertAll (reg.methodsByPath p) methods
        else reg.methodsByPath q }
  else
    let k := head p
    { reg with
      patternsByHead := fun q =>
        if q = k then reg.patternsByHead k ++ [⟨toRegex p, methods⟩]
        else reg.patternsByHead q }

/-- The registry observed by the not-found handler once every declared route
has passed through the onRoute hook, in registration order. -/
def buildRegistry (decls : List RouteDecl) : Registry :=
  decls.foldl indexRoute emptyRegistry

/-- Classification result of a dispatcher miss. -/
inductive Outcome where
  | notFound : Outcome
  | methodNotAllowed : List String → Outcome
deriving DecidableEq, Repr

/-- Embedding of the not-found handler: normalize the request url; a
non-empty exact-index entry wins and yields 405 with that method set;
otherwise scan the single bucket keyed by the head segment in registration
order and the first matching pattern yields 405 with its methods; otherwise
404. -/
def resolve (reg : Registry) (url : String) : Outcome :=
  let p := normalize url.data
  let exact := reg.methodsByPath p
  if !exact.isEmpty then Outcome.methodNotAllowed exact
  else
    match (reg.patternsByHead (head p)).find? (fun r => tokMatch r.regex p) with
    | some hit => Outcome.methodNotAllowed hit.methods
    | none => Outcome.notFound

/-- The options read by startServer that this core consumes.  JavaScript
truthiness of `opts.onBadMethod` is modelled as a boolean. -/
structure Opts where
  onBadMethod : Bool
  addDefaultRoutes : Bool
deriving DecidableEq, Repr

/-- The accumulated declaration lists `this.mem`.  Plugins, decorators and
hook handlers are opaque references, modelled as strings; routes are the
declarations later fed to the dispatcher and its onRoute hook. -/
structure Mem where
  plugins : List String
  routes : List RouteDecl
  decorators : List String
  hooks : List (String × String)
deriving DecidableEq, Repr

/-- The single default route registered when `opts.addDefaultRoutes` is set. -/
def echoRoute : RouteDecl := ⟨["GET"], "/echo"⟩

/-- The routes the dispatcher registers at start time, in order: the default
routes when enabled, then the accumulated declarations. -/
def declaredRoutes (opts : Opts) (mem : Mem) : List RouteDecl :=
  (if opts.addDefaultRoutes then [echoRoute] else []) ++ mem.routes

/-- The started server, as far as this core observes it: the miss-resolution
engine (exact index, pattern buckets and the installed not-found handler) is
present exactly when `opts.onBadMethod` was truthy at start time, and holds
the registry built from every declared route; the declared routes are
forwarded verbatim. -/
structure Server where
  missEngine : Option Registry
  routes : List RouteDecl

/-- Construction performed by startServer after the duplicate-start guard. -/
def mkServer (opts : Opts) (mem : Mem) : Server :=
  ⟨if opts.onBadMethod then some (buildRegistry (declaredRoutes opts mem)) else none,
   declaredRoutes opts mem⟩

/-- The facility instance: options, accumulated declarations, and the server
once started (`this.server`, absent until startServer runs). -/
structure Facility where
  opts : Opts
  mem : Mem
  server : Option Server

/-- Embedding of `addRoute`: throw ERR_FACS_SERVER_HTTP_ALREADY_INITED when
the server exists (first component some error, state returned untouched),
otherwise push the declaration.  Operations return the error thrown, if any,
together with the facility state afterwards. -/
def addRoute (f : Facility) (r : RouteDecl) : Option String × Facility :=
  if f.server.isSome then (some "ERR_FACS_SERVER_HTTP_ALREADY_INITED", f)
  else (none, { f with mem := { f.mem with routes := f.mem.routes ++ [r] } })

/-- Embedding of `addDecorator`: same guard, then push. -/
def addDecorator (f : Facility) (d : String) : Option String × Facility :=
  if f.server.isSome then (some "ERR_FACS_SERVER_HTTP_ALREADY_INITED", f)
  else (none, { f with mem := { f.mem with decorators := f.mem.decorators ++ [d] } })

/-- Embedding of `addPlugin`: same guard, then push. -/
def addPlugin (f : Facility) (p : String) : Option String × Facility :=
  if f.server.isSome then (some "ERR_FACS_SERVER_HTTP_ALREADY_INITED", f)
  else (none, { f with mem := { f.mem with plugins := f.mem.plugins ++ [p] } })

/-- Embedding of `addHook`: same guard, then push the (name, handler) pair. -/
def addHook (f : Facility) (hookName handler : String) : Option String × Facility :=
  if f.server.isSome then (some "ERR_FACS_SERVER_HTTP_ALREADY_INITED", f)
  else (none, { f with mem := { f.mem with hooks := f.mem.hooks ++ [(hookName, handler)] } })

/-- Embedding of `startServer`: throw ERR_FACS_SERVER_HTTP_CREATE_DUP when the
server already exists, otherwise build and store the server (installing the
miss-resolution engine only when `opts.onBadMethod` is truthy). -/
def startServer (f : Facility) : Option String × Facility :=
  if f.server.isSome then (some "ERR_FACS_SERVER_HTTP_CREATE_DUP", f)
  else (none, { f with server := some (mkServer f.opts f.mem) })

/-! Definitions written from the words of the specification, used to compare
the specified behavior with the behavior of the embedded source. -/

/-- Spec-side classification (written from the spec wording, to be compared
with `isStaticPath`): a path is Dynamic when some segment begins with the
parameter marker or some segment equals the wildcard marker. -/
def specDynamic (p : List Char) : Bool :=
  (splitSegs p).any (fun s => s.head? == some ':' || s == ['*'])

/-- A segment of a template counts as a parameter segment when it begins with
the parameter marker. -/
def segIsParam (s : List Char) : Bool := s.head? == some ':'

/-- Spec-side matching of one template segment against one candidate segment
(written from the spec wording): a parameter segment matches any non-empty
candidate segment, a literal segment must be equal to the candidate
segment. -/
def specSegMatch (t c : List Char) : Bool :=
  if segIsParam t then !c.isEmpty else t == c

/-- Spec-side segmentwise matching (written from the spec wording): segment
counts must agree and segments must match pairwise. -/
def specMatchSegs : List (List Char) → List (List Char) → Bool
  | [], [] => true
  | t :: ts, c :: cs => specSegMatch t c && specMatchSegs ts cs
  | _, _ => false

/-- Spec-side acceptance of a candidate path by a wildcard-free template
(written from the spec wording): compare the segments of the normalized
template with the segments of the candidate. -/
def specAccept (tmpl cand : List Char) : Bool :=
  specMatchSegs (splitSegs (normalize tmpl)) (splitSegs cand)

/-- A template segment is well formed when it is a pure parameter segment
(the marker followed by one or more word characters and nothing else) or a
literal segment containing no parameter marker. -/
def wfSeg (s : List Char) : Bool :=
  if segIsParam s then !s.tail.isEmpty && s.tail.all isWordChar
  else !s.contains ':'

/-- A template is well formed and wildcard free when every segment of its
normalized form is well formed and no segment is the wildcard marker. -/
def wfTemplate (tmpl : List Char) : Bool :=
  (splitSegs (normalize tmpl)).all (fun s => wfSeg s && s != ['*'])

/-! Proof infrastructure relating the compiled token list of a template to
its segments. -/

/-- Token list of one well-formed segment: a parameter segment compiles to
the single parameter atom, a literal segment to its characters. -/
def segToks (s : List Char) : List Tok :=
  if segIsParam s then [Tok.param] else s.map Tok.lit

/-- Token list of a segment list, interleaved with literal slashes. -/
def toksOfSegs : List (List Char) → List Tok
  | [] => []
  | [s] => segToks s
  | s :: ss => segToks s ++ Tok.lit '/' :: toksOfSegs ss

/-- Rebuild a character list from its segments, interleaved with slashes. -/
def joinSegs : List (List Char) → List Char
  | [] => []
  | [s] => s
  | s :: ss => s ++ '/' :: joinSegs ss

/-! Helper lemmas about dropWhile. -/

theorem mem_dropWhile_mem {p : Char → Bool} :
    ∀ {l : List Char} {c : Char}, c ∈ l.dropWhile p → c ∈ l := by
  intro l
  induction l with
  | nil => intro c h; simp at h
  | cons a as ih =>
    intro c h
    cases hpa : p a with
    | true =>
      rw [List.dropWhile_cons, if_pos (by simp [hpa])] at h
      exact List.mem_cons_of_mem a (ih h)
    | false =>
      rw [List.dropWhile_cons, if_neg (by simp [hpa])] at h
      exact h

theorem dropWhile_head_false {p : Char → Bool} :
    ∀ {l : List Char} {c : Char} {cs : List Char},
      l.dropWhile p = c :: cs → p c = false := by
  intro l
  induction l with
  | nil => intro c cs h; simp at h
  | cons a as ih =>
    intro c cs h
    cases hpa : p a with
    | true =>
      rw [List.dropWhile_cons, if_pos (by simp [hpa])] at h
      exact ih h
    | false =>
      rw [List.dropWhile_cons, if_neg (by simp [hpa])] at h
      cases h
      exact hpa

theorem dropWhile_eq_self_of_head {p : Char → Bool} {l : List Char}
    (h : ∀ c, l.head? = some c → p c = false) : l.dropWhile p = l := by
  cases l with
  | nil => rfl
  | cons a as =>
    rw [List.dropWhile_cons, if_neg (by simp [h a rfl])]

theorem dropWhile_getLast?_eq {p : Char → Bool} :
    ∀ {l : List Char}, l.dropWhile p ≠ [] →
      (l.dropWhile p).getLast? = l.getLast? := by
  intro l
  induction l with
  | nil => intro h; simp at h
  | cons a as ih =>
    intro h
    cases hpa : p a with
    | true =>
      rw [List.dropWhile_cons, if_pos (by simp [hpa])] at h ⊢
      cases as with
      | nil => simp at h
      | cons b bs => rw [ih h, List.getLast?_cons_cons]
    | false =>
      rw [List.dropWhile_cons, if_neg (by simp [hpa])]

/-! Lemmas about the three stages of normalize. -/

theorem stripQuery_no_query {p : List Char} : '?' ∉ stripQuery p := by
  intro h
  have := List.mem_takeWhile_imp h
  simp at this

theorem stripQuery_eq_self {p : List Char} (h : '?' ∉ p) : stripQuery p = p := by
  apply List.takeWhile_eq_self_iff.mpr
  intro c hc
  simp
  intro he
  exact h (he ▸ hc)

theorem orRoot_of_isEmpty {p : List Char} (h : p.isEmpty = true) :
    orRoot p = ['/'] := by
  unfold orRoot
  rw [if_pos h]

theorem orRoot_ne_nil (p : List Char) : orRoot p ≠ [] := by
  unfold orRoot
  cases hp : p.isEmpty with
  | true => simp
  | false => simp [List.isEmpty_iff] at hp ⊢; exact hp

theorem orRoot_eq_self {p : List Char} (h : p ≠ []) : orRoot p = p := by
  unfold orRoot
  rw [if_neg (by simpa [List.isEmpty_iff] using h)]

theorem mem_orRoot {p : List Char} {c : Char} (h : c ∈ orRoot p) :
    c = '/' ∨ c ∈ p := by
  unfold orRoot at h
  cases hp : p.isEmpty with
  | true => rw [if_pos (by simp [hp])] at h; simp at h; exact Or.inl h
  | false => rw [if_neg (by simp [hp])] at h; exact Or.inr h

theorem mem_stripTrailing {p : List Char} {c : Char} (h : c ∈ stripTrailing p) :
    c ∈ p := by
  unfold stripTrailing at h
  rw [List.mem_reverse] at h
  have := mem_dropWhile_mem h
  rwa [List.mem_reverse] at this

theorem stripTrailing_getLast? {p : List Char} (h : stripTrailing p ≠ []) :
    (stripTrailing p).getLast? ≠ some '/' := by
  unfold stripTrailing at h ⊢
  set X := p.reverse.dropWhile (· == '/') with hX
  cases hXc : X with
  | nil => rw [hXc] at h; simp at h
  | cons a as =>
    have hd : p.reverse.dropWhile (· == '/') = a :: as := by rw [← hX]; exact hXc
    have ha := dropWhile_head_false hd
    rw [List.getLast?_reverse]
    simp at ha ⊢
    exact ha

theorem stripTrailing_head? {p : List Char} {c : Char}
    (hc : p.head? = some c) (h : stripTrailing p ≠ []) :
    (stripTrailing p).head? = some c := by
  unfold stripTrailing at h ⊢
  set X := p.reverse.dropWhile (· == '/') with hX
  have hXne : X ≠ [] := by
    intro hnil
    rw [hnil] at h
    simp at h
  have hd : p.reverse.dropWhile (· == '/') ≠ [] := by rw [← hX]; exact hXne
  rw [List.head?_reverse]
  rw [hX, dropWhile_getLast?_eq hd, List.getLast?_reverse]
  exact hc

theorem stripTrailing_eq_self {p : List Char} (h : p.getLast? ≠ some '/') :
    stripTrailing p = p := by
  unfold stripTrailing
  rw [dropWhile_eq_self_of_head, List.reverse_reverse]
  intro c hhead
  rw [List.head?_reverse] at hhead
  simp
  intro he
  exact h (by rw [hhead, he])

theorem stripTrailing_root : stripTrailing ['/'] = [] := by decide

/-! Invariants of normalize. -/

theorem normalize_ne_nil (p : List Char) : normalize p ≠ [] :=
  orRoot_ne_nil _

theorem normalize_no_query (p : List Char) : '?' ∉ normalize p := by
  intro h
  unfold normalize at h
  rcases mem_orRoot h with h | h
  · exact absurd h (by decide)
  · rcases mem_orRoot (mem_stripTrailing h) with h | h
    · exact absurd h (by decide)
    · exact stripQuery_no_query h

theorem normalize_trailing (p : List Char) :
    normalize p = ['/'] ∨ (normalize p).getLast? ≠ some '/' := by
  unfold normalize
  cases hs : (stripTrailing (orRoot (stripQuery p))).isEmpty with
  | true =>
    left
    exact orRoot_of_isEmpty hs
  | false =>
    right
    have hne : stripTrailing (orRoot (stripQuery p)) ≠ [] := by
      simpa [List.isEmpty_iff] using hs
    rw [orRoot_eq_self hne]
    exact stripTrailing_getLast? hne

theorem normalize_head (p : List Char)
    (h : p = [] ∨ p.head? = some '/' ∨ p.head? = some '?') :
    (normalize p).head? = some '/' := by
  have hq : stripQuery p = [] ∨ (stripQuery p).head? = some '/' := by
    rcases h with h | h | h
    · left; rw [h]; rfl
    · right
      cases p with
      | nil => simp at h
      | cons a as =>
        cases h
        unfold stripQuery
        rw [List.takeWhile_cons, if_pos (by decide)]
        rfl
    · left
      cases p with
      | nil => rfl
      | cons a as =>
        cases h
        unfold stripQuery
        rw [List.takeWhile_cons, if_neg (by decide)]
  rcases hq with hq | hq
  · unfold normalize
    rw [hq]
    decide
  · unfold normalize
    have hqne : stripQuery p ≠ [] := by
      intro hnil
      rw [hnil] at hq
      simp at hq
    rw [orRoot_eq_self hqne]
    cases hs : (stripTrailing (stripQuery p)).isEmpty with
    | true =>
      rw [orRoot_of_isEmpty hs]
      rfl
    | false =>
      have hne : stripTrailing (stripQuery p) ≠ [] := by
        simpa [List.isEmpty_iff] using hs
      rw [orRoot_eq_self hne]
      exact stripTrailing_head? hq hne

theorem normalize_idem (p : List Char) : normalize (normalize p) = normalize p := by
  have hq : stripQuery (normalize p) = normalize p :=
    stripQuery_eq_self (normalize_no_query p)
  have hne : normalize p ≠ [] := normalize_ne_nil p
  show orRoot (stripTrailing (orRoot (stripQuery (normalize p)))) = normalize p
  rw [hq, orRoot_eq_self hne]
  rcases normalize_trailing p with h | h
  · rw [h, stripTrailing_root]
    rfl
  · rw [stripTrailing_eq_self h, orRoot_eq_self hne]

/-! Theorems settling the claims. -/

/-- Claim C1 (code bug): the spec states that the wildcard template matches
one or more trailing segments, in particular that the template of a slash,
the word static, a slash and the asterisk matches the candidate with trailing
segments a, b, c.  The compiled matcher instead escapes the asterisk, so it
rejects that candidate and accepts exactly the path whose final segment is a
literal asterisk. -/
theorem c1_wildcard_template_matches_only_literal_star :
    matchPath (toRegex "/static/*".data) "/static/a/b/c".data = false ∧
    matchPath (toRegex "/static/*".data) "/static/*".data = true := by
  constructor <;> decide

/-- Claim C2 (code bug): with only the dynamic route of a leading parameter
segment registered (methods POST), the resolver answers NotFound for the
one-segment path of the word items, although the compiled pattern does match
that normalized path: the pattern sits in the bucket keyed by its literal
first segment (colon id), the resolver only scans the bucket keyed by the
word items, and no shared fallback bucket is scanned. -/
theorem c2_leading_param_route_not_found :
    resolve (buildRegistry [⟨["POST"], "/:id"⟩]) "/items" = Outcome.notFound ∧
    matchPath (toRegex "/:id".data) (normalize "/items".data) = true ∧
    head (normalize "/:id".data) = ":id".data := by
  refine ⟨by decide, by decide, by decide⟩

/-- Claim C3 (counterexample): in the path of the letter a, a colon and the
letter b, no segment begins with the parameter marker and no segment equals
the wildcard marker, so the claim calls it Static and exact-indexed; the
registration-time classification of the code marks it dynamic (the colon
occurs in the interior of a segment) and the exact index stays empty. -/
theorem c3_interior_marker_counterexample :
    isStaticPath (normalize "/a:b".data) = false ∧
    specDynamic (normalize "/a:b".data) = false ∧
    (buildRegistry [⟨["GET"], "/a:b"⟩]).methodsByPath (normalize "/a:b".data) = [] := by
  refine ⟨by decide, by decide, by decide⟩

/-- Claim C3 (amended): the classification marks a normalized path Dynamic
exactly when the path contains the parameter marker or the wildcard marker
anywhere, including the interior of a segment. -/
theorem c3_dynamic_iff_contains_marker (p : List Char) :
    isStaticPath p = false ↔ (∃ c ∈ p, c = ':' ∨ c = '*') := by
  simp [isStaticPath]
  constructor
  · intro h
    by_cases hc : ':' ∈ p
    · exact ⟨':', hc, Or.inl rfl⟩
    · exact ⟨'*', h hc, Or.inr rfl⟩
  · rintro ⟨c, hc, rfl | rfl⟩
    · intro h1
      exact absurd hc h1
    · intro _
      exact hc

/-- Claim C4 (counterexample): on the raw input consisting of the letters
a, b, c the result of normalize is that input itself, which does not begin
with a slash, refuting the claim that normalize of every string begins with
a slash. -/
theorem c4_no_leading_slash_counterexample :
    normalize "abc".data = "abc".data ∧
    (normalize "abc".data).head? ≠ some '/' := by
  refine ⟨by decide, by decide⟩

/-- Claim C4 (amended): for every input, normalize contains no question mark
and does not end with a slash unless it is exactly the root; moreover it
begins with a slash whenever the raw input is empty or begins with a slash
or a question mark (the code never prepends a slash to other inputs). -/
theorem c4_normalize_invariants (p : List Char) :
    '?' ∉ normalize p ∧
    (normalize p = ['/'] ∨ (normalize p).getLast? ≠ some '/') ∧
    ((p = [] ∨ p.head? = some '/' ∨ p.head? = some '?') →
      (normalize p).head? = some '/') :=
  ⟨normalize_no_query p, normalize_trailing p, normalize_head p⟩

/-- Witness for claim C4 at a concrete input with a trailing slash and a
query component. -/
theorem c4_normalize_invariants_witness :
    '?' ∉ normalize "/a/b/?x=1".data ∧
    (normalize "/a/b/?x=1".data).head? = some '/' :=
  ⟨(c4_normalize_invariants "/a/b/?x=1".data).1,
   (c4_normalize_invariants "/a/b/?x=1".data).2.2 (Or.inr (Or.inl (by decide)))⟩

/-- Claim C8: normalize is idempotent on every input string. -/
theorem c8_normalize_idempotent (p : List Char) :
    normalize (normalize p) = normalize p :=
  normalize_idem p

/-- Claim C5: whenever the exact index of the frozen registry holds a
non-empty method set for the normalized request path, resolve answers
MethodNotAllowed with exactly that method set, before any pattern bucket is
consulted and independently of the request method. -/
theorem c5_exact_index_precedence (decls : List RouteDecl) (url : String)
    (h : (buildRegistry decls).methodsByPath (normalize url.data) ≠ []) :
    resolve (buildRegistry decls) url =
      Outcome.methodNotAllowed
        ((buildRegistry decls).methodsByPath (normalize url.data)) := by
  have h' : (!((buildRegistry decls).methodsByPath (normalize url.data)).isEmpty) = true := by
    simpa [List.isEmpty_iff] using h
  unfold resolve
  simp only [h', if_true]

/-- Witness for claim C5 at the concrete example of the spec: static route
for the word items with methods GET and a dynamic leading-parameter route
with methods POST; the miss resolves to MethodNotAllowed with allowed GET,
the exact entry, even though the pattern also matches. -/
theorem c5_exact_index_precedence_witness :
    resolve (buildRegistry [⟨["GET"], "/items"⟩, ⟨["POST"], "/:id"⟩]) "/items" =
      Outcome.methodNotAllowed ["GET"] := by
  have h := c5_exact_index_precedence
    [⟨["GET"], "/items"⟩, ⟨["POST"], "/:id"⟩] "/items" (by decide)
  rw [h]
  decide

/-- Claim C9: once startServer has succeeded, every registration call throws
the already-initialized error and returns the facility state untouched, and
a second startServer call throws the duplicate-start error. -/
theorem c9_post_start_rejection (f f' : Facility) (r : RouteDecl)
    (d pl hn hh : String) (h : startServer f = (none, f')) :
    addRoute f' r = (some "ERR_FACS_SERVER_HTTP_ALREADY_INITED", f') ∧
    addDecorator f' d = (some "ERR_FACS_SERVER_HTTP_ALREADY_INITED", f') ∧
    addPlugin f' pl = (some "ERR_FACS_SERVER_HTTP_ALREADY_INITED", f') ∧
    addHook f' hn hh = (some "ERR_FACS_SERVER_HTTP_ALREADY_INITED", f') ∧
    startServer f' = (some "ERR_FACS_SERVER_HTTP_CREATE_DUP", f') := by
  have hs : f'.server.isSome = true := by
    unfold startServer at h
    by_cases hf : f.server.isSome = true
    · rw [if_pos hf] at h
      simp at h
    · rw [if_neg hf] at h
      simp at h
      rw [← h]
      rfl
  refine ⟨?_, ?_, ?_, ?_, ?_⟩
  · unfold addRoute
    rw [if_pos hs]
  · unfold addDecorator
    rw [if_pos hs]
  · unfold addPlugin
    rw [if_pos hs]
  · unfold addHook
    rw [if_pos hs]
  · unfold startServer
    rw [if_pos hs]

/-- Witness for claim C9: start a fresh facility, then a route registration
throws the already-initialized error and leaves the state untouched. -/
theorem c9_post_start_rejection_witness :
    addRoute (startServer ⟨⟨false, false⟩, ⟨[], [], [], []⟩, none⟩).2 ⟨["GET"], "/x"⟩ =
      (some "ERR_FACS_SERVER_HTTP_ALREADY_INITED",
        (startServer ⟨⟨false, false⟩, ⟨[], [], [], []⟩, none⟩).2) :=
  (c9_post_start_rejection ⟨⟨false, false⟩, ⟨[], [], [], []⟩, none⟩
    (startServer ⟨⟨false, false⟩, ⟨[], [], [], []⟩, none⟩).2
    ⟨["GET"], "/x"⟩ "d" "p" "preHandler" "handlerRef" rfl).1

/-- Claim C10: the miss-resolution engine of a started server is present
exactly when the onBadMethod option was truthy at start time, and in that
case it is the registry built from every declared route; with the option
falsy no such structure exists and no handler of this facility is
installed. -/
theorem c10_engine_only_with_onBadMethod (f f' : Facility) (s : Server)
    (h : startServer f = (none, f')) (hs : f'.server = some s) :
    s.missEngine = (if f.opts.onBadMethod then
        some (buildRegistry (declaredRoutes f.opts f.mem)) else none) ∧
    (f.opts.onBadMethod = false → s.missEngine = none) := by
  have hmk : s = mkServer f.opts f.mem := by
    unfold startServer at h
    by_cases hf : f.server.isSome = true
    · rw [if_pos hf] at h
      simp at h
    · rw [if_neg hf] at h
      simp at h
      rw [← h] at hs
      simp at hs
      exact hs.symm
  constructor
  · rw [hmk]
    rfl
  · intro hb
    rw [hmk]
    unfold mkServer
    rw [hb]
    rfl

/-- Witness for claim C10: starting with the onBadMethod option falsy yields
a server without a miss-resolution engine. -/
theorem c10_engine_only_with_onBadMethod_witness :
    (mkServer ⟨false, false⟩ ⟨[], [], [], []⟩).missEngine = none :=
  (c10_engine_only_with_onBadMethod ⟨⟨false, false⟩, ⟨[], [], [], []⟩, none⟩
    (startServer ⟨⟨false, false⟩, ⟨[], [], [], []⟩, none⟩).2
    (mkServer ⟨false, false⟩ ⟨[], [], [], []⟩) rfl rfl).2 rfl

/-! Lemmas about the set-as-ordered-list operations of the exact index. -/

theorem mem_insertNew {s : List String} {x m : String} :
    m ∈ insertNew s x ↔ m ∈ s ∨ m = x := by
  unfold insertNew
  by_cases h : s.contains x
  · rw [if_pos h]
    simp at h
    constructor
    · exact Or.inl
    · rintro (h1 | rfl)
      · exact h1
      · exact h
  · rw [if_neg h]
    simp

theorem nodup_insertNew {s : List String} {x : String} (h : s.Nodup) :
    (insertNew s x).Nodup := by
  unfold insertNew
  by_cases hc : s.contains x
  · rw [if_pos hc]
    exact h
  · rw [if_neg hc]
    simp at hc
    simp [List.nodup_append, h, hc]

theorem mem_insertAll {l : List String} :
    ∀ {s : List String} {m : String}, m ∈ insertAll s l ↔ m ∈ s ∨ m ∈ l := by
  induction l with
  | nil => intro s m; simp [insertAll]
  | cons a as ih =>
    intro s m
    show m ∈ insertAll (insertNew s a) as ↔ _
    rw [ih, mem_insertNew]
    simp
    tauto

theorem nodup_insertAll {l : List String} :
    ∀ {s : List String}, s.Nodup → (insertAll s l).Nodup := by
  induction l with
  | nil => intro s h; exact h
  | cons a as ih =>
    intro s h
    exact ih (nodup_insertNew h)

/-! Characterization of the exact index built by the onRoute hook. -/

theorem indexRoute_methodsByPath (reg : Registry) (r : RouteDecl)
    (q : List Char) (m : String) :
    m ∈ (indexRoute reg r).methodsByPath q ↔
      m ∈ reg.methodsByPath q ∨
      (isStaticPath (normalize r.path.data) = true ∧ normalize r.path.data = q ∧
        m ∈ r.method.map upper) := by
  unfold indexRoute
  by_cases hstat : isStaticPath (normalize r.path.data) = true
  · by_cases hq : q = normalize r.path.data
    · subst hq
      simp [hstat, mem_insertAll]
    · have hq2 : ¬(normalize r.path.data = q) := fun h => hq h.symm
      simp [hstat, hq, hq2]
  · have hb : isStaticPath (normalize r.path.data) = false := by
      simp at hstat
      exact hstat
    simp [hb]

theorem indexRoute_methodsByPath_nodup (reg : Registry) (r : RouteDecl)
    (q : List Char) (h : (reg.methodsByPath q).Nodup) :
    ((indexRoute reg r).methodsByPath q).Nodup := by
  unfold indexRoute
  by_cases hstat : isStaticPath (normalize r.path.data) = true
  · by_cases hq : q = normalize r.path.data
    · subst hq
      simp [hstat]
      exact nodup_insertAll h
    · simp [hstat, hq]
      exact h
  · have hb : isStaticPath (normalize r.path.data) = false := by
      simp at hstat
      exact hstat
    simp [hb]
    exact h

theorem foldl_indexRoute_methodsByPath (decls : List RouteDecl) :
    ∀ (reg : Registry) (q : List Char) (m : String),
      m ∈ (decls.foldl indexRoute reg).methodsByPath q ↔
        m ∈ reg.methodsByPath q ∨
        ∃ r ∈ decls, isStaticPath (normalize r.path.data) = true ∧
          normalize r.path.data = q ∧ m ∈ r.method.map upper := by
  induction decls with
  | nil => intro reg q m; simp
  | cons r rs ih =>
    intro reg q m
    rw [List.foldl_cons, ih, indexRoute_methodsByPath]
    constructor
    · rintro ((h1 | ⟨hs1, hq1, hm1⟩) | ⟨r', hr', h2⟩)
      · exact Or.inl h1
      · exact Or.inr ⟨r, List.mem_cons_self r rs, hs1, hq1, hm1⟩
      · exact Or.inr ⟨r', List.mem_cons_of_mem r hr', h2⟩
    · rintro (h1 | ⟨r', hr', h2⟩)
      · exact Or.inl (Or.inl h1)
      · rcases List.mem_cons.mp hr' with rfl | hr2
        · exact Or.inl (Or.inr h2)
        · exact Or.inr ⟨r', hr2, h2⟩

theorem foldl_indexRoute_methodsByPath_nodup (decls : List RouteDecl) :
    ∀ (reg : Registry) (q : List Char), (reg.methodsByPath q).Nodup →
      ((decls.foldl indexRoute reg).methodsByPath q).Nodup := by
  induction decls with
  | nil => intro reg q h; exact h
  | cons r rs ih =>
    intro reg q h
    rw [List.foldl_cons]
    exact ih _ q (indexRoute_methodsByPath_nodup reg r q h)

/-- Claim C6: for every declaration list and every path, the exact index of
the built registry holds a duplicate-free method list whose members are
exactly the uppercased methods of the static declarations regarding that
normalized path; and at the concrete example of the spec, registering the
items path for GET and separately for POST makes a miss on that path report
allowed GET, POST. -/
theorem c6_method_accumulation (decls : List RouteDecl) (q : List Char) :
    ((buildRegistry decls).methodsByPath q).Nodup ∧
    (∀ m, m ∈ (buildRegistry decls).methodsByPath q ↔
      ∃ r ∈ decls, isStaticPath (normalize r.path.data) = true ∧
        normalize r.path.data = q ∧ ∃ m0 ∈ r.method, upper m0 = m) ∧
    resolve (buildRegistry [⟨["GET"], "/items"⟩, ⟨["POST"], "/items"⟩]) "/items" =
      Outcome.methodNotAllowed ["GET", "POST"] := by
  refine ⟨?_, ?_, by decide⟩
  · exact foldl_indexRoute_methodsByPath_nodup decls emptyRegistry q List.nodup_nil
  · intro m
    rw [show buildRegistry decls = decls.foldl indexRoute emptyRegistry from rfl,
      foldl_indexRoute_methodsByPath]
    simp [emptyRegistry]

/-! Lemmas about splitSegs and joinSegs. -/

theorem splitSegs_ne_nil (l : List Char) : splitSegs l ≠ [] := by
  cases l with
  | nil => simp [splitSegs]
  | cons c rest =>
    unfold splitSegs
    by_cases hc : c = '/'
    · rw [if_pos hc]
      simp
    · rw [if_neg hc]
      cases splitSegs rest <;> simp

theorem splitSegs_no_slash :
    ∀ {l : List Char} {s : List Char}, s ∈ splitSegs l → '/' ∉ s := by
  intro l
  induction l with
  | nil =>
    intro s hs
    simp [splitSegs] at hs
    simp [hs]
  | cons c rest ih =>
    intro s hs
    unfold splitSegs at hs
    by_cases hc : c = '/'
    · rw [if_pos hc] at hs
      rcases List.mem_cons.mp hs with rfl | hs2
      · simp
      · exact ih hs2
    · rw [if_neg hc] at hs
      cases hsplit : splitSegs rest with
      | nil => exact absurd hsplit (splitSegs_ne_nil rest)
      | cons t ts =>
        rw [hsplit] at hs
        rcases List.mem_cons.mp hs with rfl | hs2
        · intro hmem
          rcases List.mem_cons.mp hmem with h1 | h2
          · exact hc h1.symm
          · exact ih (by rw [hsplit]; exact List.mem_cons_self t ts) h2
        · exact ih (by rw [hsplit]; exact List.mem_cons_of_mem t hs2)

theorem joinSegs_splitSegs : ∀ l : List Char, joinSegs (splitSegs l) = l := by
  intro l
  induction l with
  | nil => rfl
  | cons c rest ih =>
    unfold splitSegs
    by_cases hc : c = '/'
    · rw [if_pos hc]
      subst hc
      cases hsplit : splitSegs rest with
      | nil => exact absurd hsplit (splitSegs_ne_nil rest)
      | cons t ts =>
        show [] ++ '/' :: joinSegs (t :: ts) = '/' :: rest
        rw [← hsplit, ih]
        rfl
    · rw [if_neg hc]
      cases hsplit : splitSegs rest with
      | nil => exact absurd hsplit (splitSegs_ne_nil rest)
      | cons t ts =>
        cases ts with
        | nil =>
          show c :: t = c :: rest
          have : joinSegs (splitSegs rest) = rest := ih
          rw [hsplit] at this
          show c :: t = c :: rest
          rw [← this]
          rfl
        | cons t2 ts2 =>
          show (c :: t) ++ '/' :: joinSegs (t2 :: ts2) = c :: rest
          have : joinSegs (splitSegs rest) = rest := ih
          rw [hsplit] at this
          rw [← this]
          rfl

/-! Lemmas about tokMatch. -/

theorem tokMatch_nil (l : List Char) : tokMatch [] l = l.isEmpty := by
  cases l <;> rfl

theorem tokMatch_lits : ∀ (t l : List Char), tokMatch (t.map Tok.lit) l = (t == l) := by
  intro t
  induction t with
  | nil =>
    intro l
    cases l <;> rfl
  | cons a t' ih =>
    intro l
    cases l with
    | nil => rfl
    | cons d ds =>
      show (a == d && tokMatch (t'.map Tok.lit) ds) = (a :: t' == d :: ds)
      rw [ih]
      rfl

theorem tokMatch_param_only :
    ∀ l : List Char, tokMatch [Tok.param] l = (!l.isEmpty && l.all (· != '/')) := by
  intro l
  induction l with
  | nil => rfl
  | cons d ds ih =>
    show ((d != '/') && (tokMatch [] ds || tokMatch [Tok.param] ds)) = _
    rw [tokMatch_nil, ih]
    cases ds with
    | nil => simp
    | cons e es => simp

theorem tokMatch_litslash_noslash (ts : List Tok) :
    ∀ (c : List Char), '/' ∉ c → tokMatch (Tok.lit '/' :: ts) c = false := by
  intro c hc
  cases c with
  | nil => rfl
  | cons e es =>
    have he : ('/' == e) = false := by
      simp
      intro h
      exact hc (h ▸ List.mem_cons_self e es)
    show ('/' == e && tokMatch ts es) = false
    rw [he]
    rfl

theorem tokMatch_litslash (ts : List Tok) (l : List Char) :
    ∀ (c : List Char), '/' ∉ c →
      tokMatch (Tok.lit '/' :: ts) (c ++ '/' :: l) = (c.isEmpty && tokMatch ts l) := by
  intro c hc
  cases c with
  | nil => simp [tokMatch]
  | cons e es =>
    have he : ('/' == e) = false := by
      simp
      intro h
      exact hc (h ▸ List.mem_cons_self e es)
    show ('/' == e && tokMatch ts (es ++ '/' :: l)) = _
    rw [he]
    rfl

theorem tokMatch_param_slash (ts : List Tok) (l : List Char) :
    ∀ (c : List Char), '/' ∉ c →
      tokMatch (Tok.param :: Tok.lit '/' :: ts) (c ++ '/' :: l) =
        (!c.isEmpty && tokMatch ts l) := by
  intro c
  induction c with
  | nil =>
    intro _
    show (('/' != '/') && _) = _
    simp
  | cons d c' ih =>
    intro hc
    have hd : d ≠ '/' := fun h => hc (h ▸ List.mem_cons_self d c')
    have hc' : '/' ∉ c' := fun h => hc (List.mem_cons_of_mem d h)
    show ((d != '/') &&
      (tokMatch (Tok.lit '/' :: ts) (c' ++ '/' :: l) ||
        tokMatch (Tok.param :: Tok.lit '/' :: ts) (c' ++ '/' :: l))) = _
    rw [tokMatch_litslash ts l c' hc', ih hc']
    have hd2 : (d != '/') = true := by simp [hd]
    rw [hd2]
    cases hce : c'.isEmpty <;> simp [hce]

theorem tokMatch_param_slash_none (ts : List Tok) :
    ∀ (c : List Char), '/' ∉ c →
      tokMatch (Tok.param :: Tok.lit '/' :: ts) c = false := by
  intro c
  induction c with
  | nil => intro _; rfl
  | cons d c' ih =>
    intro hc
    have hc' : '/' ∉ c' := fun h => hc (List.mem_cons_of_mem d h)
    show ((d != '/') &&
      (tokMatch (Tok.lit '/' :: ts) c' ||
        tokMatch (Tok.param :: Tok.lit '/' :: ts) c')) = false
    rw [tokMatch_litslash_noslash ts c' hc', ih hc']
    simp

theorem tokMatch_lits_slash (ts : List Tok) (l : List Char) :
    ∀ (t c : List Char), '/' ∉ t → '/' ∉ c →
      tokMatch (t.map Tok.lit ++ Tok.lit '/' :: ts) (c ++ '/' :: l) =
        ((t == c) && tokMatch ts l) := by
  intro t
  induction t with
  | nil =>
    intro c ht hc
    cases c with
    | nil => simp [tokMatch]
    | cons d c' =>
      have he : ('/' == d) = false := by
        simp
        intro h
        exact hc (h ▸ List.mem_cons_self d c')
      show ('/' == d && _) = _
      rw [he]
      rfl
  | cons a t' ih =>
    intro c ht hc
    have ha : a ≠ '/' := fun h => ht (h ▸ List.mem_cons_self a t')
    have ht' : '/' ∉ t' := fun h => ht (List.mem_cons_of_mem a h)
    cases c with
    | nil =>
      have ha2 : (a == '/') = false := by simp [ha]
      show (a == '/' && _) = _
      rw [ha2]
      rfl
    | cons d c' =>
      have hc' : '/' ∉ c' := fun h => hc (List.mem_cons_of_mem d h)
      show (a == d && tokMatch (t'.map Tok.lit ++ Tok.lit '/' :: ts) (c' ++ '/' :: l)) = _
      rw [ih c' ht' hc']
      show _ = ((a == d && (t' == c')) && tokMatch ts l)
      rw [Bool.and_assoc]

theorem tokMatch_lits_slash_none (ts : List Tok) :
    ∀ (t c : List Char), '/' ∉ t → '/' ∉ c →
      tokMatch (t.map Tok.lit ++ Tok.lit '/' :: ts) c = false := by
  intro t
  induction t with
  | nil =>
    intro c ht hc
    exact tokMatch_litslash_noslash ts c hc
  | cons a t' ih =>
    intro c ht hc
    have ha : a ≠ '/' := fun h => ht (h ▸ List.mem_cons_self a t')
    have ht' : '/' ∉ t' := fun h => ht (List.mem_cons_of_mem a h)
    cases c with
    | nil => rfl
    | cons d c' =>
      have hc' : '/' ∉ c' := fun h => hc (List.mem_cons_of_mem d h)
      show (a == d && tokMatch (t'.map Tok.lit ++ Tok.lit '/' :: ts) c') = false
      rw [ih c' ht' hc']
      simp

/-! Lemmas about the pattern scanner compileAux. -/

theorem compileAux_cons (skipRun : Bool) (c : Char) (rest : List Char) :
    compileAux skipRun (c :: rest) =
      (if skipRun && isWordChar c then compileAux true rest
       else if c = ':' then
         match rest with
         | [] => [Tok.lit ':']
         | d :: ds =>
           if isWordChar d then Tok.param :: compileAux true ds
           else Tok.lit ':' :: compileAux false (d :: ds)
       else Tok.lit c :: compileAux false rest) := by
  rw [compileAux.eq_def]

theorem compileAux_false_cons (c : Char) (rest : List Char) (hc : c ≠ ':') :
    compileAux false (c :: rest) = Tok.lit c :: compileAux false rest := by
  rw [compileAux_cons, if_neg (by simp), if_neg hc]

theorem compileAux_lit_seg :
    ∀ (s r : List Char), ':' ∉ s →
      compileAux false (s ++ r) = s.map Tok.lit ++ compileAux false r := by
  intro s
  induction s with
  | nil => intro r _; rfl
  | cons c s' ih =>
    intro r hs
    have hc : c ≠ ':' := fun h => hs (h ▸ List.mem_cons_self c s')
    show compileAux false (c :: (s' ++ r)) = _
    rw [compileAux_false_cons c _ hc, ih r (fun h => hs (List.mem_cons_of_mem c h))]
    rfl

theorem compileAux_skip :
    ∀ (w r : List Char), w.all isWordChar = true → (r = [] ∨ r.head? = some '/') →
      compileAux true (w ++ r) = compileAux false r := by
  intro w
  induction w with
  | nil =>
    intro r _ hr
    rcases hr with rfl | hr
    · rfl
    · cases r with
      | nil => rfl
      | cons d ds =>
        have hd : d = '/' := by
          simp at hr
          exact hr
        subst hd
        show compileAux true ('/' :: ds) = compileAux false ('/' :: ds)
        rw [compileAux_cons, compileAux_cons]
        rw [if_neg (by decide), if_neg (by simp)]
        rw [if_neg (by decide)]
  | cons a w' ih =>
    intro r hw hr
    rw [List.all_cons, Bool.and_eq_true] at hw
    obtain ⟨ha, hw'⟩ := hw
    show compileAux true (a :: (w' ++ r)) = _
    rw [compileAux_cons, if_pos (by simp [ha])]
    exact ih r hw' hr

theorem compileAux_param_seg :
    ∀ (w r : List Char), w ≠ [] → w.all isWordChar = true →
      (r = [] ∨ r.head? = some '/') →
      compileAux false (':' :: (w ++ r)) = Tok.param :: compileAux false r := by
  intro w r hne hw hr
  cases w with
  | nil => contradiction
  | cons a w' =>
    rw [List.all_cons, Bool.and_eq_true] at hw
    obtain ⟨ha, hw'⟩ := hw
    show compileAux false (':' :: (a :: (w' ++ r))) = _
    rw [compileAux_cons, if_neg (by simp), if_pos rfl]
    show (if isWordChar a = true then Tok.param :: compileAux true (w' ++ r)
      else Tok.lit ':' :: compileAux false (a :: (w' ++ r))) = _
    rw [if_pos ha, compileAux_skip w' r hw' hr]

/-! Facts extracted from well-formed segments. -/

theorem wfSeg_param {s : List Char} (hp : segIsParam s = true) (hw : wfSeg s = true) :
    ∃ w, s = ':' :: w ∧ w ≠ [] ∧ w.all isWordChar = true := by
  cases s with
  | nil => simp [segIsParam] at hp
  | cons c tail =>
    have hc : c = ':' := by
      simp [segIsParam] at hp
      exact hp
    subst hc
    unfold wfSeg at hw
    rw [if_pos hp, Bool.and_eq_true] at hw
    obtain ⟨h1, h2⟩ := hw
    refine ⟨tail, rfl, ?_, h2⟩
    intro hnil
    subst hnil
    simp at h1

theorem wfSeg_lit {s : List Char} (hp : segIsParam s = false) (hw : wfSeg s = true) :
    ':' ∉ s := by
  unfold wfSeg at hw
  rw [if_neg (by simp [hp])] at hw
  simpa using hw

/-- The compiled token list of a well-formed joined segment list is the
interleaving of the segment token lists with literal slashes. -/
theorem compile_joinSegs :
    ∀ (segs : List (List Char)), segs ≠ [] →
      (∀ s ∈ segs, wfSeg s = true ∧ '/' ∉ s) →
      compileAux false (joinSegs segs) = toksOfSegs segs := by
  intro segs
  induction segs with
  | nil => intro h _; contradiction
  | cons s ss ih =>
    intro _ hwf
    obtain ⟨hwfs, hslash⟩ := hwf s (List.mem_cons_self s ss)
    cases ss with
    | nil =>
      show compileAux false (joinSegs [s]) = toksOfSegs [s]
      by_cases hp : segIsParam s = true
      · obtain ⟨w, rfl, hne, hword⟩ := wfSeg_param hp hwfs
        have h1 := compileAux_param_seg w [] hne hword (Or.inl rfl)
        rw [List.append_nil] at h1
        show compileAux false (':' :: w) = _
        rw [h1]
        simp [toksOfSegs, segToks, hp]
        rfl
      · have hcolon : ':' ∉ s := wfSeg_lit (by simpa using hp) hwfs
        have h1 := compileAux_lit_seg s [] hcolon
        rw [List.append_nil] at h1
        show compileAux false s = _
        rw [h1]
        simp [toksOfSegs, segToks, hp]
        rfl
    | cons s2 ss2 =>
      have hih := ih (by simp) (fun x hx => hwf x (List.mem_cons_of_mem s hx))
      show compileAux false (s ++ '/' :: joinSegs (s2 :: ss2)) =
        segToks s ++ Tok.lit '/' :: toksOfSegs (s2 :: ss2)
      by_cases hp : segIsParam s = true
      · obtain ⟨w, rfl, hne, hword⟩ := wfSeg_param hp hwfs
        have h1 := compileAux_param_seg w ('/' :: joinSegs (s2 :: ss2)) hne hword
          (Or.inr rfl)
        rw [List.cons_append, h1,
          compileAux_false_cons '/' _ (by decide), hih]
        simp [segToks, hp]
      · have hcolon : ':' ∉ s := wfSeg_lit (by simpa using hp) hwfs
        rw [compileAux_lit_seg s _ hcolon,
          compileAux_false_cons '/' _ (by decide), hih]
        simp [segToks, hp]

/-- Matching the interleaved token list of the template segments against a
joined candidate segment list is segmentwise matching. -/
theorem tokMatch_toksOfSegs :
    ∀ (tsegs csegs : List (List Char)), tsegs ≠ [] → csegs ≠ [] →
      (∀ s ∈ tsegs, '/' ∉ s) → (∀ c ∈ csegs, '/' ∉ c) →
      tokMatch (toksOfSegs tsegs) (joinSegs csegs) = specMatchSegs tsegs csegs := by
  intro tsegs
  induction tsegs with
  | nil => intro csegs h; exact absurd rfl h
  | cons t ts ih =>
    intro csegs _ hcne hts hcs
    have hslasht : '/' ∉ t := hts t (List.mem_cons_self t ts)
    cases csegs with
    | nil => exact absurd rfl hcne
    | cons c cs =>
      have hslashc : '/' ∉ c := hcs c (List.mem_cons_self c cs)
      cases ts with
      | nil =>
        cases cs with
        | nil =>
          show tokMatch (segToks t) (joinSegs [c]) = specMatchSegs [t] [c]
          by_cases hp : segIsParam t = true
          · show tokMatch (segToks t) c = _
            rw [show segToks t = [Tok.param] by simp [segToks, hp],
              tokMatch_param_only]
            have hall : c.all (· != '/') = true := by
              rw [List.all_eq_true]
              intro x hx
              simp
              intro he
              exact hslashc (he ▸ hx)
            rw [hall]
            simp [specMatchSegs, specSegMatch, hp]
          · show tokMatch (segToks t) c = _
            rw [show segToks t = t.map Tok.lit by simp [segToks, hp],
              tokMatch_lits]
            simp [specMatchSegs, specSegMatch, hp]
        | cons c2 cs2 =>
          show tokMatch (segToks t) (c ++ '/' :: joinSegs (c2 :: cs2)) =
            specMatchSegs [t] (c :: c2 :: cs2)
          have hrhs : specMatchSegs [t] (c :: c2 :: cs2) = false := by
            show (specSegMatch t c && specMatchSegs [] (c2 :: cs2)) = false
            simp [specMatchSegs]
          rw [hrhs]
          by_cases hp : segIsParam t = true
          · rw [show segToks t = [Tok.param] by simp [segToks, hp],
              tokMatch_param_only]
            simp
          · rw [show segToks t = t.map Tok.lit by simp [segToks, hp],
              tokMatch_lits]
            have hneq : t ≠ c ++ '/' :: joinSegs (c2 :: cs2) := by
              intro h
              apply hslasht
              rw [h]
              simp
            simp [hneq]
      | cons t2 ts2 =>
        have hts' : ∀ s ∈ t2 :: ts2, '/' ∉ s :=
          fun s hs => hts s (List.mem_cons_of_mem t hs)
        have htoks : toksOfSegs (t :: t2 :: ts2) =
            segToks t ++ Tok.lit '/' :: toksOfSegs (t2 :: ts2) := rfl
        cases cs with
        | nil =>
          show tokMatch (toksOfSegs (t :: t2 :: ts2)) (joinSegs [c]) =
            specMatchSegs (t :: t2 :: ts2) [c]
          have hrhs : specMatchSegs (t :: t2 :: ts2) [c] = false := by
            show (specSegMatch t c && specMatchSegs (t2 :: ts2) []) = false
            simp [specMatchSegs]
          rw [hrhs, htoks]
          show tokMatch (segToks t ++ Tok.lit '/' :: toksOfSegs (t2 :: ts2)) c = false
          by_cases hp : segIsParam t = true
          · rw [show segToks t = [Tok.param] by simp [segToks, hp]]
            exact tokMatch_param_slash_none _ c hslashc
          · rw [show segToks t = t.map Tok.lit by simp [segToks, hp]]
            exact tokMatch_lits_slash_none _ t c hslasht hslashc
        | cons c2 cs2 =>
          have hcs' : ∀ x ∈ c2 :: cs2, '/' ∉ x :=
            fun x hx => hcs x (List.mem_cons_of_mem c hx)
          have hihx := ih (c2 :: cs2) (by simp) (by simp) hts' hcs'
          show tokMatch (toksOfSegs (t :: t2 :: ts2))
              (c ++ '/' :: joinSegs (c2 :: cs2)) =
            specMatchSegs (t :: t2 :: ts2) (c :: c2 :: cs2)
          rw [htoks]
          show tokMatch (segToks t ++ Tok.lit '/' :: toksOfSegs (t2 :: ts2))
              (c ++ '/' :: joinSegs (c2 :: cs2)) =
            (specSegMatch t c && specMatchSegs (t2 :: ts2) (c2 :: cs2))
          by_cases hp : segIsParam t = true
          · rw [show segToks t = [Tok.param] by simp [segToks, hp]]
            show tokMatch (Tok.param :: Tok.lit '/' :: toksOfSegs (t2 :: ts2))
                (c ++ '/' :: joinSegs (c2 :: cs2)) = _
            rw [tokMatch_param_slash _ _ c hslashc, hihx]
            simp [specSegMatch, hp]
          · rw [show segToks t = t.map Tok.lit by simp [segToks, hp],
              tokMatch_lits_slash _ _ t c hslasht hslashc, hihx]
            simp [specSegMatch, hp]

/-- Claim C7 (counterexample): the template with a colon in the interior of
its single segment is dynamic and wildcard free; the claim says its literal
segment must match exactly, so the candidate with the letters a, x, x should
be rejected, yet the compiled matcher accepts it (the colon-word run is
substituted wherever it occurs, not only at segment starts). -/
theorem c7_interior_colon_counterexample :
    matchPath (toRegex "/a:b".data) "/axx".data = true ∧
    specAccept "/a:b".data "/axx".data = false ∧
    isStaticPath (normalize "/a:b".data) = false := by
  refine ⟨by decide, by decide, by decide⟩

/-- Claim C7 (amended): for every template whose normalized segments are each
either a pure parameter segment (the marker plus one or more word
characters) or a colon-free literal segment, and which has no wildcard
segment, the compiled matcher accepts a candidate exactly when the segment
counts agree, literal segments are equal, and each parameter segment faces
one non-empty slash-free candidate segment. -/
theorem c7_segmentwise_match (tmpl cand : List Char)
    (h : wfTemplate tmpl = true) :
    matchPath (toRegex tmpl) cand = specAccept tmpl cand := by
  have hwf : ∀ s ∈ splitSegs (normalize tmpl), wfSeg s = true ∧ '/' ∉ s := by
    intro s hs
    have h2 := (List.all_eq_true.mp h) s hs
    simp at h2
    exact ⟨h2.1, splitSegs_no_slash hs⟩
  have hcomp : compileTokens (normalize tmpl) =
      toksOfSegs (splitSegs (normalize tmpl)) := by
    conv_lhs =>
      rw [show normalize tmpl = joinSegs (splitSegs (normalize tmpl)) from
        (joinSegs_splitSegs _).symm]
    exact compile_joinSegs _ (splitSegs_ne_nil _) hwf
  show tokMatch (compileTokens (normalize tmpl)) cand = _
  rw [hcomp]
  conv_lhs =>
    rw [show cand = joinSegs (splitSegs cand) from (joinSegs_splitSegs _).symm]
  rw [tokMatch_toksOfSegs _ _ (splitSegs_ne_nil _) (splitSegs_ne_nil _)
    (fun s hs => (hwf s hs).2) (fun x hx => splitSegs_no_slash hx)]
  rfl

/-- Witness for claim C7 at the concrete templates of the spec: the
well-formed template of users, a parameter, posts and a parameter accepts
the matching candidate and rejects the shorter and the longer one. -/
theorem c7_segmentwise_match_witness :
    wfTemplate "/users/:id/posts/:postId".data = true ∧
    matchPath (toRegex "/users/:id/posts/:postId".data) "/users/42/posts/7".data = true ∧
    matchPath (toRegex "/users/:id/posts/:postId".data) "/users/42/posts".data = false ∧
    matchPath (toRegex "/users/:id/posts/:postId".data) "/users/42/posts/7/comments".data = false := by
  refine ⟨by decide, ?_, ?_, ?_⟩
  · rw [c7_segmentwise_match _ _ (by decide)]
    decide
  · rw [c7_segmentwise_match _ _ (by decide)]
    decide
  · rw [c7_segmentwise_match _ _ (by decide)]
    decide

end Httpd
